import Mathlib

/-!
# Verification of the BFV ring / key-switching kernel

Shallow embedding of the polynomial-ring, NTT, RNS/Garner, secret-key
encrypt/decrypt and key-switching code of the `fhe.rs` fork, together with
proofs of the specification claims about that code.

Ring elements of `Z_Q[x]/(x^n+1)` are modelled as coefficient vectors
`Fin n → ZMod Q` (the `PowerBasis` view); the RNS per-limb storage, the NTT
point-value view and the Shoup-precomputation view are storage layouts of the
same ring element, so ring operations are modelled on the mathematical ring
itself.  Randomness (seeds, ChaCha-derived polynomials, sampled noise) is made
explicit: sampled values are parameters, and seed-expansion is an abstract
deterministic function.
-/

namespace FheRs

/-! ## NTT operator (crates/fhe-math/src/ntt/native.rs) -/

/-- Modelled from the spec: `Modulus::reduce1_vt` of the external `zq` module,
a single variable-time conditional-subtraction reduction step: reduces `a`
modulo `m` assuming `a < 2*m`. -/
def reduce1_vt (a m : ℕ) : ℕ := if m ≤ a then a - m else a

/-- `NttOperator::reduce3_vt` (native.rs): reduce `a < 4p` modulo `p` by a
conditional subtraction of `2p` followed by one of `p`. -/
def reduce3_vt (p a : ℕ) : ℕ := reduce1_vt (reduce1_vt a (2 * p)) p

/-- Modelled from the spec: the backend NTT plan (`concrete_ntt::prime64::Plan`,
external to this repository).  §4.1 of the spec requires the constant-time
forward transform used on secret data to produce canonically reduced residues;
a plan is `Reduced` when every output coefficient is below the modulus. -/
def PlanReduced (p sz : ℕ) (plan : (Fin sz → ℕ) → Fin sz → ℕ) : Prop :=
  ∀ a i, plan a i < p

/-- `NttOperator::forward` (native.rs): delegates to the plan's forward pass. -/
def forward (sz : ℕ) (plan : (Fin sz → ℕ) → Fin sz → ℕ) (a : Fin sz → ℕ) :
    Fin sz → ℕ := plan a

/-- `NttOperator::forward_vt_lazy` (native.rs): the lazy variable-time forward
pass; same plan call, output only guaranteed below `4p`. -/
def forward_vt_lazy (sz : ℕ) (plan : (Fin sz → ℕ) → Fin sz → ℕ)
    (a : Fin sz → ℕ) : Fin sz → ℕ := plan a

/-- `NttOperator::forward_vt` (native.rs): the lazy pass followed by the
explicit `reduce3_vt` reduction of every coefficient. -/
def forward_vt (p sz : ℕ) (plan : (Fin sz → ℕ) → Fin sz → ℕ)
    (a : Fin sz → ℕ) : Fin sz → ℕ :=
  fun i => reduce3_vt p (forward_vt_lazy sz plan a i)

lemma reduce3_vt_eq_mod (p a : ℕ) (hp : 0 < p) (ha : a < 4 * p) :
    reduce3_vt p a = a % p := by
  unfold reduce3_vt reduce1_vt
  split_ifs with h1 h2 h2
  · conv_rhs => rw [show a = (a - 3 * p) + 3 * p from by omega]
    rw [Nat.add_mul_mod_self_right, Nat.mod_eq_of_lt (show a - 3 * p < p by omega)]
    omega
  · conv_rhs => rw [show a = (a - 2 * p) + 2 * p from by omega]
    rw [Nat.add_mul_mod_self_right, Nat.mod_eq_of_lt (show a - 2 * p < p by omega)]
  · conv_rhs => rw [show a = (a - p) + 1 * p from by omega]
    rw [Nat.add_mul_mod_self_right, Nat.mod_eq_of_lt (show a - p < p by omega)]
  · exact (Nat.mod_eq_of_lt (by omega)).symm

/-- C8: for arrays of the operator's length, the variable-time forward NTT
agrees with the constant-time forward NTT coefficient by coefficient: the lazy
pass stays below `4p`, `reduce3_vt` maps every value below `4p` to its
canonical residue mod `p`, and hence `forward_vt = forward` once the plan's
output is fully reduced (spec §4.1 contract for the constant-time path). -/
theorem c8_forward_vt_eq_forward (p sz : ℕ) (plan : (Fin sz → ℕ) → Fin sz → ℕ)
    (hp : 0 < p) (hplan : PlanReduced p sz plan) :
    (∀ x, x < 4 * p → reduce3_vt p x = x % p) ∧
    (∀ a i, forward_vt_lazy sz plan a i < 4 * p) ∧
    (∀ a, forward_vt p sz plan a = forward sz plan a) := by
  refine ⟨fun x hx => reduce3_vt_eq_mod p x hp hx, ?_, ?_⟩
  · intro a i
    exact lt_of_lt_of_le (hplan a i) (by omega)
  · intro a
    funext i
    have h := hplan a i
    show reduce3_vt p (plan a i) = plan a i
    rw [reduce3_vt_eq_mod p _ hp (by omega)]
    exact Nat.mod_eq_of_lt h

theorem c8_witness :
    0 < 5 ∧ ((∀ x, x < 4 * 5 → reduce3_vt 5 x = x % 5) ∧
      (∀ a i, forward_vt_lazy 3 (fun v j => v j % 5) a i < 4 * 5) ∧
      (∀ a, forward_vt 5 3 (fun v j => v j % 5) a =
        forward 3 (fun v j => v j % 5) a)) :=
  ⟨by decide,
   c8_forward_vt_eq_forward 5 3 (fun v j => v j % 5) (by decide)
     (fun a i => Nat.mod_lt _ (by decide))⟩

/-! ## The polynomial ring `Z_Q[x]/(x^n+1)` (crates' `math::rq::Poly`)

`Poly` is stored per RNS limb in the source; mathematically it is an element
of `Z_Q[x]/(x^n+1)` with `Q` the product of the ciphertext moduli, and every
ring operation of the source (`+`, `-`, `*`, scalar `*`) is an operation of
that ring.  We represent an element by its `PowerBasis` coefficient vector. -/

abbrev Rq (n Q : ℕ) := Fin n → ZMod Q

instance instDecEqExcept {eps alpha : Type} [DecidableEq eps]
    [DecidableEq alpha] : DecidableEq (Except eps alpha)
  | .error x, .error y =>
    if h : x = y then .isTrue (by rw [h])
    else .isFalse (fun hc => h (by injection hc))
  | .error _, .ok _ => .isFalse (fun hc => Except.noConfusion hc)
  | .ok _, .error _ => .isFalse (fun hc => Except.noConfusion hc)
  | .ok x, .ok y =>
    if h : x = y then .isTrue (by rw [h])
    else .isFalse (fun hc => h (by injection hc))

/-- Negacyclic (i.e. mod `x^n+1`) polynomial product on coefficient vectors:
the ring multiplication realised by the source's NTT-pointwise product. -/
def nmul {n Q : ℕ} (a b : Rq n Q) : Rq n Q := fun k =>
  ∑ i : Fin n,
    if h : i.val ≤ k.val then
      a i * b ⟨k.val - i.val, lt_of_le_of_lt (Nat.sub_le _ _) k.isLt⟩
    else
      -(a i * b ⟨n + k.val - i.val, by have := i.isLt; have := k.isLt; omega⟩)

/-- Scalar multiplication of a polynomial by a ring constant (the source's
`BigUint * &Poly`, computed per limb / per coefficient). -/
def smulP {n Q : ℕ} (g : ZMod Q) (a : Rq n Q) : Rq n Q := fun j => g * a j

section RingLemmas

variable {n Q : ℕ}

lemma nmul_apply (a b : Rq n Q) (k : Fin n) :
    nmul a b k = ∑ i : Fin n,
      if h : i.val ≤ k.val then
        a i * b ⟨k.val - i.val, lt_of_le_of_lt (Nat.sub_le _ _) k.isLt⟩
      else
        -(a i * b ⟨n + k.val - i.val, by have := i.isLt; have := k.isLt; omega⟩) :=
  rfl

lemma nmul_zero_left (b : Rq n Q) : nmul 0 b = 0 := by
  funext k
  rw [nmul_apply]
  refine Finset.sum_eq_zero fun i _ => ?_
  by_cases h : i.val ≤ k.val
  · simp [dif_pos h]
  · simp [dif_neg h]

lemma nmul_add_left (a b c : Rq n Q) :
    nmul (a + b) c = nmul a c + nmul b c := by
  funext k
  simp only [Pi.add_apply, nmul_apply, ← Finset.sum_add_distrib]
  refine Finset.sum_congr rfl fun i _ => ?_
  by_cases h : i.val ≤ k.val
  · simp only [dif_pos h, Pi.add_apply, add_mul]
  · simp only [dif_neg h, Pi.add_apply, add_mul, neg_add]

lemma nmul_add_right (a b c : Rq n Q) :
    nmul a (b + c) = nmul a b + nmul a c := by
  funext k
  simp only [Pi.add_apply, nmul_apply, ← Finset.sum_add_distrib]
  refine Finset.sum_congr rfl fun i _ => ?_
  by_cases h : i.val ≤ k.val
  · simp only [dif_pos h, Pi.add_apply, mul_add]
  · simp only [dif_neg h, Pi.add_apply, mul_add, neg_add]

lemma nmul_neg_right (a b : Rq n Q) : nmul a (-b) = -(nmul a b) := by
  funext k
  simp only [Pi.neg_apply, nmul_apply, ← Finset.sum_neg_distrib]
  refine Finset.sum_congr rfl fun i _ => ?_
  by_cases h : i.val ≤ k.val
  · simp only [dif_pos h, Pi.neg_apply, mul_neg]
  · simp only [dif_neg h, Pi.neg_apply, mul_neg, neg_neg]

lemma nmul_sub_right (a b c : Rq n Q) :
    nmul a (b - c) = nmul a b - nmul a c := by
  rw [sub_eq_add_neg, nmul_add_right, nmul_neg_right, sub_eq_add_neg]

lemma nmul_smulP_right (g : ZMod Q) (a b : Rq n Q) :
    nmul a (smulP g b) = smulP g (nmul a b) := by
  funext k
  show nmul a (smulP g b) k = g * nmul a b k
  simp only [nmul_apply, Finset.mul_sum]
  refine Finset.sum_congr rfl fun i _ => ?_
  by_cases h : i.val ≤ k.val
  · simp only [dif_pos h, smulP]
    ring
  · simp only [dif_neg h, smulP]
    ring

lemma smulP_nmul_left (g : ZMod Q) (a b : Rq n Q) :
    smulP g (nmul a b) = nmul (smulP g a) b := by
  funext k
  show g * nmul a b k = nmul (smulP g a) b k
  simp only [nmul_apply, Finset.mul_sum]
  refine Finset.sum_congr rfl fun i _ => ?_
  by_cases h : i.val ≤ k.val
  · simp only [dif_pos h, smulP]
    ring
  · simp only [dif_neg h, smulP]
    ring

lemma nmul_sum_left {ι : Type} (s : Finset ι) (f : ι → Rq n Q) (c : Rq n Q) :
    nmul (∑ i ∈ s, f i) c = ∑ i ∈ s, nmul (f i) c := by
  classical
  induction s using Finset.induction_on with
  | empty => simpa using nmul_zero_left c
  | insert hni ih =>
    rw [Finset.sum_insert hni, Finset.sum_insert hni, nmul_add_left, ih]

end RingLemmas

/-! ### Associativity of `nmul` via cyclic convolution of length `2n`

`Z_Q[x]/(x^n+1)` is a quotient of the cyclic algebra `Z_Q[x]/(x^{2n}-1)`;
we prove associativity of the negacyclic product by transferring it from the
(easily associative) cyclic convolution. -/

section Assoc

variable {n Q : ℕ}

/-- Cyclic convolution on functions over `ZMod M` (proof device). -/
def cconv {M : ℕ} [NeZero M] (Q : ℕ) (u v : ZMod M → ZMod Q) :
    ZMod M → ZMod Q :=
  fun k => ∑ i : ZMod M, u i * v (k - i)

lemma cconv_assoc {M : ℕ} [NeZero M] (u v w : ZMod M → ZMod Q) :
    cconv Q (cconv Q u v) w = cconv Q u (cconv Q v w) := by
  funext k
  show (∑ i : ZMod M, (∑ j : ZMod M, u j * v (i - j)) * w (k - i)) =
    ∑ j : ZMod M, u j * ∑ i : ZMod M, v i * w (k - j - i)
  simp only [Finset.sum_mul, Finset.mul_sum]
  rw [Finset.sum_comm]
  refine Finset.sum_congr rfl fun j _ => ?_
  rw [← Equiv.sum_comp (Equiv.addLeft j) (fun i => u j * v (i - j) * w (k - i))]
  refine Finset.sum_congr rfl fun i _ => ?_
  have h1 : Equiv.addLeft j i - j = i := by
    simp [Equiv.addLeft]
  have h2 : k - Equiv.addLeft j i = k - j - i := by
    simp [Equiv.addLeft]
    ring
  rw [h1, h2, mul_assoc]

/-- Reduce a length-`2n` cyclic coefficient vector modulo `x^n+1`
(the quotient map to the negacyclic ring, coefficientwise `v_k - v_{n+k}`). -/
def fold2 (n : ℕ) {Q : ℕ} (v : ZMod (2 * n) → ZMod Q) : Rq n Q :=
  fun k => v (k.val : ℕ) - v ((n + k.val : ℕ))

/-- Embed a negacyclic coefficient vector as a zero-padded cyclic vector. -/
def pad (n : ℕ) {Q : ℕ} (a : Rq n Q) : ZMod (2 * n) → ZMod Q :=
  fun i => if h : i.val < n then a ⟨i.val, h⟩ else 0

lemma sum_range_two_mul {A : Type} [AddCommMonoid A] (m : ℕ) (g : ℕ → A) :
    ∑ j ∈ Finset.range (2 * m), g j =
      (∑ j ∈ Finset.range m, g j) + ∑ j ∈ Finset.range m, g (m + j) := by
  rw [Finset.range_eq_Ico,
    ← Finset.sum_Ico_consecutive g (Nat.zero_le m) (show m ≤ 2 * m by omega),
    Finset.sum_Ico_eq_sum_range, Finset.sum_Ico_eq_sum_range]
  simp only [Nat.sub_zero, Nat.zero_add]
  rw [show 2 * m - m = m from by omega, Finset.range_eq_Ico]

lemma fold2_pad (hn : 0 < n) (a : Rq n Q) : fold2 n (pad n a) = a := by
  haveI : NeZero (2 * n) := ⟨by omega⟩
  funext k
  have hk2 : k.val < 2 * n := by have := k.isLt; omega
  have hnk2 : n + k.val < 2 * n := by have := k.isLt; omega
  show pad n a ((k.val : ℕ) : ZMod (2 * n)) - pad n a ((n + k.val : ℕ)) = a k
  rw [pad, pad]
  rw [dif_pos (by rw [ZMod.val_cast_of_lt hk2]; exact k.isLt)]
  rw [dif_neg (by rw [ZMod.val_cast_of_lt hnk2]; omega)]
  simp only [sub_zero]
  congr 1
  · apply Fin.ext
    simp [ZMod.val_cast_of_lt hk2]

/-- Negacyclic twist of a cyclic vector: `tw v m = v m - v (m+n)`. -/
def twst (n : ℕ) {Q : ℕ} (v : ZMod (2 * n) → ZMod Q) :
    ZMod (2 * n) → ZMod Q :=
  fun m => v m - v (m + (n : ℕ))

lemma twst_add_n (v : ZMod (2 * n) → ZMod Q) (m : ZMod (2 * n)) :
    twst n v (m + (n : ℕ)) = -(twst n v m) := by
  have h2n : ((n : ZMod (2 * n)) + (n : ℕ)) = ((2 * n : ℕ) : ZMod (2 * n)) := by
    push_cast
    ring
  rw [twst, twst]
  rw [add_assoc, h2n, ZMod.natCast_self, add_zero]
  abel

lemma sum_zmod_eq_sum_range {M : ℕ} [NeZero M] {A : Type} [AddCommMonoid A]
    (f : ZMod M → A) : ∑ i : ZMod M, f i = ∑ j ∈ Finset.range M, f (j : ℕ) := by
  refine Finset.sum_nbij' (fun z => z.val) (fun m => ((m : ℕ) : ZMod M)) ?_ ?_ ?_ ?_ ?_
  · intro z _
    exact Finset.mem_range.mpr (ZMod.val_lt z)
  · intro m _
    exact Finset.mem_univ _
  · intro z _
    exact ZMod.natCast_rightInverse z
  · intro m hm
    exact ZMod.val_cast_of_lt (Finset.mem_range.mp hm)
  · intro z _
    rw [ZMod.natCast_rightInverse z]

lemma twst_natCast [NeZero (2 * n)] (v : ZMod (2 * n) → ZMod Q) (m : ℕ)
    (hm : m < n) : twst n v ((m : ℕ) : ZMod (2 * n)) = fold2 n v ⟨m, hm⟩ := by
  rw [twst, fold2]
  congr 2
  push_cast
  ring

lemma fold2_cconv [NeZero (2 * n)] (hn : 0 < n) (u v : ZMod (2 * n) → ZMod Q) :
    fold2 n (cconv Q u v) = nmul (fold2 n u) (fold2 n v) := by
  funext k
  have hnn : ((n : ZMod (2 * n)) + (n : ℕ)) = 0 := by
    rw [← Nat.cast_add, show n + n = 2 * n from by ring, ZMod.natCast_self]
  have hstep1 : fold2 n (cconv Q u v) k =
      ∑ i : ZMod (2 * n), u i * twst n v ((k.val : ℕ) - i) := by
    show cconv Q u v ((k.val : ℕ) : ZMod (2 * n)) -
        cconv Q u v ((n + k.val : ℕ)) = _
    rw [cconv, cconv, ← Finset.sum_sub_distrib]
    refine Finset.sum_congr rfl fun i _ => ?_
    rw [← mul_sub]
    congr 1
    rw [twst]
    congr 2
    push_cast
    ring
  rw [hstep1]
  rw [sum_zmod_eq_sum_range (fun i => u i * twst n v ((k.val : ℕ) - i))]
  rw [sum_range_two_mul n (fun j => u (j : ℕ) * twst n v ((k.val : ℕ) - (j : ℕ)))]
  rw [← Finset.sum_add_distrib]
  rw [← Fin.sum_univ_eq_sum_range
    (fun j => u (j : ℕ) * twst n v ((k.val : ℕ) - (j : ℕ)) +
      u ((n + j : ℕ)) * twst n v ((k.val : ℕ) - ((n + j : ℕ)))) n]
  rw [nmul_apply]
  refine Finset.sum_congr rfl fun j _ => ?_
  have hne : twst n v ((k.val : ℕ) - ((j.val : ℕ) : ZMod (2 * n)) - (n : ℕ)) =
      -(twst n v ((k.val : ℕ) - (j.val : ℕ))) := by
    rw [sub_eq_add_neg ((k.val : ℕ) - ((j.val : ℕ) : ZMod (2 * n))) ((n : ℕ)),
      neg_eq_of_add_eq_zero_left hnn, twst_add_n]
  have hterm : u ((j.val : ℕ)) * twst n v ((k.val : ℕ) - (j.val : ℕ)) +
      u ((n + j.val : ℕ)) * twst n v ((k.val : ℕ) - ((n + j.val : ℕ))) =
      (u ((j.val : ℕ)) - u ((n + j.val : ℕ))) *
        twst n v ((k.val : ℕ) - (j.val : ℕ)) := by
    have harg : ((k.val : ℕ) : ZMod (2 * n)) - ((n + j.val : ℕ)) =
        ((k.val : ℕ) - ((j.val : ℕ) : ZMod (2 * n)) - (n : ℕ)) := by
      push_cast
      ring
    rw [harg, hne, sub_mul]
    ring
  rw [hterm]
  have hfu : fold2 n u j = u ((j.val : ℕ)) - u ((n + j.val : ℕ)) := rfl
  by_cases h : j.val ≤ k.val
  · rw [dif_pos h, ← Nat.cast_sub h,
      twst_natCast v (k.val - j.val) (lt_of_le_of_lt (Nat.sub_le _ _) k.isLt),
      hfu]
  · rw [dif_neg h]
    have hm : n + k.val - j.val < n := by have := j.isLt; have := k.isLt; omega
    have hmcast : ((n + k.val - j.val : ℕ) : ZMod (2 * n)) =
        ((k.val : ℕ) - (j.val : ℕ) + (n : ℕ)) := by
      have hle : j.val ≤ n + k.val := by have := j.isLt; omega
      rw [Nat.cast_sub hle]
      push_cast
      ring
    have h2 : twst n v ((k.val : ℕ) - (j.val : ℕ)) =
        -(twst n v ((n + k.val - j.val : ℕ))) := by
      have h4 := twst_add_n v ((k.val : ℕ) - (j.val : ℕ))
      rw [← hmcast] at h4
      rw [h4, neg_neg]
    rw [h2, twst_natCast v (n + k.val - j.val) hm, hfu]
    ring

lemma nmul_eq_fold2 [NeZero (2 * n)] (hn : 0 < n) (a b : Rq n Q) :
    nmul a b = fold2 n (cconv Q (pad n a) (pad n b)) := by
  rw [fold2_cconv hn, fold2_pad hn, fold2_pad hn]

lemma nmul_assoc (hn : 0 < n) (a b c : Rq n Q) :
    nmul (nmul a b) c = nmul a (nmul b c) := by
  haveI : NeZero (2 * n) := ⟨by omega⟩
  calc nmul (nmul a b) c
      = nmul (fold2 n (cconv Q (pad n a) (pad n b))) (fold2 n (pad n c)) := by
        rw [← nmul_eq_fold2 hn a b, fold2_pad hn]
    _ = fold2 n (cconv Q (cconv Q (pad n a) (pad n b)) (pad n c)) :=
        (fold2_cconv hn (cconv Q (pad n a) (pad n b)) (pad n c)).symm
    _ = fold2 n (cconv Q (pad n a) (cconv Q (pad n b) (pad n c))) := by
        rw [cconv_assoc]
    _ = nmul a (fold2 n (cconv Q (pad n b) (pad n c))) := by
        rw [fold2_cconv hn (pad n a) (cconv Q (pad n b) (pad n c)), fold2_pad hn]
    _ = nmul a (nmul b c) := by
        rw [← nmul_eq_fold2 hn b c]

end Assoc

/-! ## RNS context and Garner basis (external `math::rns`, used by
`crates/bfv/src/keys/key_switching_key.rs`) -/

section Rns

variable {k : ℕ} (q : Fin k → ℕ)

/-- The full ciphertext modulus: the product of the RNS moduli. -/
def Qp : ℕ := ∏ i, q i

/-- The product of all ciphertext moduli except limb `i`. -/
def Qdiv (i : Fin k) : ℕ := ∏ j ∈ Finset.univ.erase i, q j

/-- Modelled from the spec: `RnsContext::get_garner(i)` of the external
`math::rns` module; per §3/§4.3 the Garner basis element for limb `i` is the
modulus product divided by `q_i`, scaled so that `g_i ≡ 1 (mod q_i)` and
`g_i ≡ 0 (mod q_j)` for `j ≠ i`.  The scaling factor `ginv i` (an inverse of
`M/q_i` modulo `q_i`) is passed as an explicit witness. -/
def garner (ginv : Fin k → ℕ) (i : Fin k) : ℕ := Qdiv q i * ginv i

lemma Qp_eq_mul (i : Fin k) : Qp q = q i * Qdiv q i :=
  (Finset.mul_prod_erase Finset.univ q (Finset.mem_univ i)).symm

lemma dvd_Qdiv {i j : Fin k} (hij : j ≠ i) : q j ∣ Qdiv q i :=
  Finset.dvd_prod_of_mem q (by simp [Finset.mem_erase, hij])

lemma modEq_prod_of_forall
    (hco : ∀ i j : Fin k, i ≠ j → Nat.Coprime (q i) (q j)) (a b : ℕ) :
    ∀ S : Finset (Fin k), (∀ i ∈ S, a ≡ b [MOD q i]) →
      a ≡ b [MOD ∏ i ∈ S, q i] := by
  intro S
  induction S using Finset.induction_on with
  | empty =>
    intro _
    simpa using Nat.modEq_one
  | @insert i S hni ih =>
    intro h
    rw [Finset.prod_insert hni]
    have hcop : Nat.Coprime (q i) (∏ j ∈ S, q j) :=
      Nat.Coprime.prod_right fun j hj => hco i j (by rintro rfl; exact hni hj)
    exact (Nat.modEq_and_modEq_iff_modEq_mul hcop).mp
      ⟨h i (Finset.mem_insert_self i S),
       ih fun j hj => h j (Finset.mem_insert_of_mem hj)⟩

/-- Garner/CRT reconstruction: summing `g_i · (x mod q_i)` over the limbs
recovers `x` modulo the full modulus (spec §4.3). -/
lemma garner_reconstruct (hq : ∀ i, 0 < q i)
    (hco : ∀ i j : Fin k, i ≠ j → Nat.Coprime (q i) (q j))
    (ginv : Fin k → ℕ) (hginv : ∀ i, Qdiv q i * ginv i ≡ 1 [MOD q i])
    (x : ℕ) :
    (∑ i, garner q ginv i * (x % q i)) ≡ x [MOD Qp q] := by
  apply modEq_prod_of_forall q hco
  intro j _
  haveI : NeZero (q j) := ⟨(hq j).ne'⟩
  apply (ZMod.natCast_eq_natCast_iff _ _ _).mp
  push_cast
  rw [Finset.sum_eq_single j]
  · have hg : ((garner q ginv j : ℕ) : ZMod (q j)) = 1 := by
      have := (ZMod.natCast_eq_natCast_iff _ _ _).mpr (hginv j)
      simpa [garner] using this
    rw [hg, one_mul]
    exact_mod_cast ZMod.natCast_mod x (q j)
  · intro i _ hij
    have hdvd : q j ∣ garner q ginv i :=
      Dvd.dvd.mul_right (dvd_Qdiv q (Ne.symm hij)) (ginv i)
    have hz : ((garner q ginv i : ℕ) : ZMod (q j)) = 0 :=
      (ZMod.natCast_zmod_eq_zero_iff_dvd _ _).mpr hdvd
    rw [hz, zero_mul]
  · intro hj
    exact absurd (Finset.mem_univ j) hj

end Rns

/-! ## Key-switching keys (crates/bfv/src/keys/key_switching_key.rs) -/

/-- A ChaCha8 seed: 32 bytes. -/
abbrev SeedT := Fin 32 → Fin 256

/-- `KeySwitchingKey` (key_switching_key.rs): the seed that generated the
`c1` polynomials, plus the `c0` and `c1` vectors, one pair per ciphertext
modulus limb (the `par` pointer is implicit in the type parameters). -/
structure KSKModel (n k : ℕ) (q : Fin k → ℕ) where
  seed : SeedT
  c0 : Fin k → Rq n (Qp q)
  c1 : Fin k → Rq n (Qp q)

section Ksk

variable {n k : ℕ} (q : Fin k → ℕ)
variable (seedDerive : SeedT → ℕ → SeedT) (prgK : SeedT → Rq n (Qp q))

/-- `KeySwitchingKey::generate_c1`: derive one per-limb seed after another
from the ChaCha8 stream of `seed` and expand each into a uniformly random
polynomial.  The stream (`seedDerive`) and the polynomial expansion
(`prgK`, the external `Poly::random_from_seed`) are abstract deterministic
functions: `c1` depends on nothing but the seed. -/
def generate_c1 (seed : SeedT) : Fin k → Rq n (Qp q) :=
  fun i => prgK (seedDerive seed i.val)

/-- `KeySwitchingKey::generate_c0`: for each limb `i`,
`b = small_noise - c1_i·s + g_i·from` (the clone / representation changes /
zeroize steps of the source do not alter the ring value). -/
def generate_c0 (s fromP : Rq n (Qp q)) (e : Fin k → Rq n (Qp q))
    (ginv : Fin k → ℕ) (c1 : Fin k → Rq n (Qp q)) : Fin k → Rq n (Qp q) :=
  fun i =>
    let a_s := nmul (c1 i) s
    (e i - a_s) + smulP ((garner q ginv i : ℕ) : ZMod (Qp q)) fromP

/-- `KeySwitchingKey::new`: sample a fresh seed (here: explicit parameter),
derive `c1` from it, then `c0` from the secret, the noise and `c1`.
The `generate_c0` length check cannot fail here since `c1` has exactly
one entry per ciphertext modulus by construction. -/
def ksk_new (s fromP : Rq n (Qp q)) (seed : SeedT)
    (e : Fin k → Rq n (Qp q)) (ginv : Fin k → ℕ) : KSKModel n k q :=
  { seed := seed
    c0 := generate_c0 q s fromP e ginv (generate_c1 q seedDerive prgK seed)
    c1 := generate_c1 q seedDerive prgK seed }

/-- Lift one RNS limb row of coefficients (values below the limb modulus)
into the full ring: `Poly::try_convert_from(row, ctx, PowerBasis)` followed
by the `PowerBasis → Ntt` representation change. -/
def castRow {n Q : ℕ} (r : Fin n → ℕ) : Rq n Q := fun j => ((r j : ℕ) : ZMod Q)

/-- The loop of `KeySwitchingKey::key_switch`: `izip!` walks the input's limb
rows together with `c0` and `c1` and stops at the shortest of the three, so
rows beyond the key's limb count (or key limbs beyond the rows) are silently
dropped. -/
def key_switch_go (ksk : KSKModel n k q) :
    List (Fin n → ℕ) → ℕ → Rq n (Qp q) × Rq n (Qp q) →
      Rq n (Qp q) × Rq n (Qp q)
  | [], _, acc => acc
  | r :: rs, i, acc =>
    if h : i < k then
      key_switch_go ksk rs (i + 1)
        (acc.1 + nmul (castRow r) (ksk.c0 ⟨i, h⟩),
         acc.2 + nmul (castRow r) (ksk.c1 ⟨i, h⟩))
    else acc

/-- `KeySwitchingKey::key_switch`: accumulate `acc0 += c2_i · c0_i` and
`acc1 += c2_i · c1_i` over the zipped limbs.  The body cannot fail (each row
has exactly the ring degree), so the result is always `Ok`; in particular no
limb-count validation is performed on `p`. -/
def key_switch (ksk : KSKModel n k q) (rows : List (Fin n → ℕ))
    (acc0 acc1 : Rq n (Qp q)) :
    Except String (Rq n (Qp q) × Rq n (Qp q)) :=
  .ok (key_switch_go q ksk rows 0 (acc0, acc1))

/-- The RNS limb rows of a polynomial, as walked by
`p.coefficients().outer_iter()`: row `i` holds the residues of the
coefficients modulo `q i`. -/
def limbRows (p : Rq n (Qp q)) : List (Fin n → ℕ) :=
  List.ofFn (fun i : Fin k => fun j => (p j).val % q i)

/-- Total lookup into the key's `c0` list (zero beyond the limb count). -/
def kskC0At (ksk : KSKModel n k q) (i : ℕ) : Rq n (Qp q) :=
  if h : i < k then ksk.c0 ⟨i, h⟩ else 0

/-- Total lookup into the key's `c1` list (zero beyond the limb count). -/
def kskC1At (ksk : KSKModel n k q) (i : ℕ) : Rq n (Qp q) :=
  if h : i < k then ksk.c1 ⟨i, h⟩ else 0

lemma key_switch_go_ofFn (ksk : KSKModel n k q) :
    ∀ (m : ℕ) (f : Fin m → Fin n → ℕ) (i0 : ℕ), i0 + m ≤ k →
      ∀ acc : Rq n (Qp q) × Rq n (Qp q),
      key_switch_go q ksk (List.ofFn f) i0 acc =
        (acc.1 + ∑ j : Fin m, nmul (castRow (f j)) (kskC0At q ksk (i0 + j.val)),
         acc.2 + ∑ j : Fin m, nmul (castRow (f j)) (kskC1At q ksk (i0 + j.val)))
    := by
  intro m
  induction m with
  | zero =>
    intro f i0 hm acc
    simp [key_switch_go]
  | succ m ih =>
    intro f i0 hm acc
    have hi0 : i0 < k := by omega
    rw [List.ofFn_succ]
    rw [key_switch_go]
    rw [dif_pos hi0]
    rw [ih (fun j => f j.succ) (i0 + 1) (by omega) _]
    have hc0 : ksk.c0 ⟨i0, hi0⟩ = kskC0At q ksk i0 := by
      rw [kskC0At, dif_pos hi0]
    have hc1 : ksk.c1 ⟨i0, hi0⟩ = kskC1At q ksk i0 := by
      rw [kskC1At, dif_pos hi0]
    rw [hc0, hc1]
    refine Prod.ext ?_ ?_ <;>
    · show _ + _ + _ = _ + _
      rw [Fin.sum_univ_succ, add_assoc]
      simp only [Fin.val_zero, Fin.val_succ, Nat.add_zero]
      congr 2
      refine Finset.sum_congr rfl fun j _ => ?_
      rw [show i0 + 1 + j.val = i0 + (j.val + 1) from by omega]

/-- The negacyclic product of a lifted residue row with an integer-coefficient
polynomial, computed over ℤ (proof device for the noise bound). -/
def nmulInt {n : ℕ} (r : Fin n → ℕ) (eb : Fin n → ℤ) (j : Fin n) : ℤ :=
  ∑ i : Fin n,
    if h : i.val ≤ j.val then
      (r i : ℤ) * eb ⟨j.val - i.val, lt_of_le_of_lt (Nat.sub_le _ _) j.isLt⟩
    else
      -((r i : ℤ) * eb ⟨n + j.val - i.val, by have := i.isLt; have := j.isLt; omega⟩)

lemma nmul_castRow_intCast {n Q : ℕ} (r : Fin n → ℕ) (eb : Fin n → ℤ)
    (j : Fin n) :
    nmul (castRow r) (fun m => ((eb m : ℤ) : ZMod Q)) j
      = ((nmulInt r eb j : ℤ) : ZMod Q) := by
  rw [nmul_apply, nmulInt, Int.cast_sum]
  refine Finset.sum_congr rfl fun i _ => ?_
  by_cases h : i.val ≤ j.val
  · rw [dif_pos h, dif_pos h]
    simp only [castRow]
    push_cast
    ring
  · rw [dif_neg h, dif_neg h]
    simp only [castRow]
    push_cast
    ring

lemma natAbs_sum_le_finset {ι : Type} (s : Finset ι) (f : ι → ℤ) :
    (∑ i ∈ s, f i).natAbs ≤ ∑ i ∈ s, (f i).natAbs := by
  have h2 : ((∑ i ∈ s, f i).natAbs : ℤ) ≤ ((∑ i ∈ s, (f i).natAbs : ℕ) : ℤ) := by
    rw [← Int.abs_eq_natAbs]
    calc |∑ i ∈ s, f i| ≤ ∑ i ∈ s, |f i| := Finset.abs_sum_le_sum_abs f s
      _ = ((∑ i ∈ s, (f i).natAbs : ℕ) : ℤ) := by
        push_cast
        rfl
  exact_mod_cast h2

lemma nmulInt_natAbs_le {n : ℕ} (r : Fin n → ℕ) (eb : Fin n → ℤ) (j : Fin n)
    (qi B : ℕ) (hr : ∀ i, r i ≤ qi) (he : ∀ i, (eb i).natAbs ≤ B) :
    (nmulInt r eb j).natAbs ≤ n * (qi * B) := by
  calc (nmulInt r eb j).natAbs
      ≤ ∑ i : Fin n, (if h : i.val ≤ j.val then
          ((r i : ℤ) * eb ⟨j.val - i.val, lt_of_le_of_lt (Nat.sub_le _ _) j.isLt⟩)
        else
          -((r i : ℤ) * eb ⟨n + j.val - i.val, by
              have := i.isLt; have := j.isLt; omega⟩)).natAbs := by
        rw [nmulInt]
        exact natAbs_sum_le_finset _ _
    _ ≤ ∑ _i : Fin n, qi * B := by
        refine Finset.sum_le_sum fun i _ => ?_
        by_cases h : i.val ≤ j.val
        · rw [dif_pos h, Int.natAbs_mul, Int.natAbs_ofNat]
          exact Nat.mul_le_mul (hr i) (he _)
        · rw [dif_neg h, Int.natAbs_neg, Int.natAbs_mul, Int.natAbs_ofNat]
          exact Nat.mul_le_mul (hr i) (he _)
    _ = n * (qi * B) := by
        rw [Finset.sum_const, Finset.card_univ, Fintype.card_fin, smul_eq_mul]

/-- Balanced representative of a small integer in `ZMod Q`: the smaller of the
canonical value and its complement is at most the integer's magnitude. -/
lemma balanced_min_le {Q : ℕ} [NeZero Q] (z : ℤ) (hz : z.natAbs < Q) :
    min ((z : ZMod Q).val) (Q - (z : ZMod Q).val) ≤ z.natAbs := by
  have hQ0 : 0 < Q := Nat.pos_of_ne_zero (NeZero.ne Q)
  have hval : (((z : ZMod Q).val : ℕ) : ℤ) = z % (Q : ℤ) := ZMod.val_intCast z
  rcases le_or_lt 0 z with hpos | hneg
  · have hzq : z % (Q : ℤ) = z := Int.emod_eq_of_lt hpos (by omega)
    rw [hzq] at hval
    omega
  · have h1 : z % (Q : ℤ) = (z + Q) % (Q : ℤ) := by
      rw [show z + (Q : ℤ) = z + (Q : ℤ) * 1 from by ring, Int.add_mul_emod_self_left]
    have h2 : (z + (Q : ℤ)) % (Q : ℤ) = z + Q :=
      Int.emod_eq_of_lt (by omega) (by omega)
    rw [h1, h2] at hval
    omega

/-- The additive noise polynomial introduced by `key_switch`:
`Σ_i c2_i · e_i`, the limb rows of the input times the per-limb noise of the
key. -/
def ksNoise (p : Rq n (Qp q)) (e : Fin k → Rq n (Qp q)) : Rq n (Qp q) :=
  ∑ i, nmul (castRow (fun j => (p j).val % q i)) (e i)

/-- Garner reconstruction at the polynomial level: the `g_i`-weighted sum of
the lifted limb rows of `p` is `p` itself. -/
lemma garner_rows_reconstruct (hq : ∀ i, 0 < q i)
    (hco : ∀ i j : Fin k, i ≠ j → Nat.Coprime (q i) (q j))
    (ginv : Fin k → ℕ) (hginv : ∀ i, Qdiv q i * ginv i ≡ 1 [MOD q i])
    (p : Rq n (Qp q)) :
    (∑ i, smulP ((garner q ginv i : ℕ) : ZMod (Qp q))
      (castRow (fun j => (p j).val % q i))) = p := by
  haveI : NeZero (Qp q) := ⟨(Finset.prod_pos fun i _ => hq i).ne'⟩
  funext j
  rw [Finset.sum_apply]
  have h := garner_reconstruct q hq hco ginv hginv ((p j).val)
  have h2 := (ZMod.natCast_eq_natCast_iff _ _ (Qp q)).mpr h
  push_cast at h2
  rw [ZMod.natCast_rightInverse (p j)] at h2
  rw [← h2]
  exact Finset.sum_congr rfl fun i _ => rfl

/-- C2: applying a key-switching key generated for secret `s` and target
`from` to the limb rows of a polynomial `p`, starting from zero accumulators,
yields `(acc0, acc1)` with `acc0 + acc1·s = p·from + noise`, where the noise
`Σ_i c2_i·e_i` has balanced-representation magnitude below the fixed 70-bit
threshold whenever the parameter sizes satisfy the reference-regime bounds
(`n·B·Σq_i < 2^70 < Q`, as the default parameter set does). -/
theorem c2_key_switch_correct (hn : 0 < n) (hq : ∀ i, 0 < q i)
    (hco : ∀ i j : Fin k, i ≠ j → Nat.Coprime (q i) (q j))
    (ginv : Fin k → ℕ) (hginv : ∀ i, Qdiv q i * ginv i ≡ 1 [MOD q i])
    (s fromP p : Rq n (Qp q)) (seed : SeedT) (B : ℕ)
    (ebar : Fin k → Fin n → ℤ) (he : ∀ i j, (ebar i j).natAbs ≤ B)
    (hQbig : 2 ^ 70 < Qp q) (hBd : n * B * (∑ i, q i) < 2 ^ 70)
    (acc : Rq n (Qp q) × Rq n (Qp q))
    (hks : key_switch q (ksk_new q seedDerive prgK s fromP seed
        (fun i m => ((ebar i m : ℤ) : ZMod (Qp q))) ginv) (limbRows q p) 0 0
      = .ok acc) :
    acc.1 + nmul acc.2 s =
      nmul p fromP +
        ksNoise q p (fun i m => ((ebar i m : ℤ) : ZMod (Qp q))) ∧
    ∀ j, min ((ksNoise q p (fun i m => ((ebar i m : ℤ) : ZMod (Qp q))) j).val)
        (Qp q - (ksNoise q p (fun i m => ((ebar i m : ℤ) : ZMod (Qp q))) j).val)
      < 2 ^ 70 := by
  haveI : NeZero (Qp q) := ⟨(Finset.prod_pos fun i _ => hq i).ne'⟩
  set E : Fin k → Rq n (Qp q) :=
    fun i m => ((ebar i m : ℤ) : ZMod (Qp q)) with hE
  set KS := ksk_new q seedDerive prgK s fromP seed E ginv with hKS
  set c1s : Fin k → Rq n (Qp q) := generate_c1 q seedDerive prgK seed with hc1s
  set c2 : Fin k → Rq n (Qp q) :=
    fun i => castRow (fun l => (p l).val % q i) with hc2
  constructor
  · -- algebraic identity
    have hgo := key_switch_go_ofFn q KS k
      (fun i => fun l => (p l).val % q i) 0 (by omega) (0, 0)
    rw [key_switch, limbRows, hgo] at hks
    injection hks with hks
    have hat0 : ∀ j : Fin k, kskC0At q KS (0 + j.val) = KS.c0 j := by
      intro j
      rw [kskC0At, dif_pos (show 0 + j.val < k by have := j.isLt; omega)]
      exact congrArg KS.c0 (Fin.ext (show 0 + j.val = j.val by omega))
    have hat1 : ∀ j : Fin k, kskC1At q KS (0 + j.val) = KS.c1 j := by
      intro j
      rw [kskC1At, dif_pos (show 0 + j.val < k by have := j.isLt; omega)]
      exact congrArg KS.c1 (Fin.ext (show 0 + j.val = j.val by omega))
    have hacc1 : acc.1 = ∑ i, nmul (c2 i) (KS.c0 i) := by
      rw [← hks]
      show (0 : Rq n (Qp q)) + _ = _
      rw [zero_add]
      exact Finset.sum_congr rfl fun i _ => by rw [hat0 i]
    have hacc2 : acc.2 = ∑ i, nmul (c2 i) (KS.c1 i) := by
      rw [← hks]
      show (0 : Rq n (Qp q)) + _ = _
      rw [zero_add]
      exact Finset.sum_congr rfl fun i _ => by rw [hat1 i]
    have hc0i : ∀ i, KS.c0 i = (E i - nmul (c1s i) s)
        + smulP ((garner q ginv i : ℕ) : ZMod (Qp q)) fromP := fun i => rfl
    have hc1i : ∀ i, KS.c1 i = c1s i := fun i => rfl
    rw [hacc1, hacc2]
    have hsplit : (∑ i, nmul (c2 i) (KS.c0 i)) =
        (∑ i, nmul (c2 i) (E i)) - (∑ i, nmul (c2 i) (nmul (c1s i) s))
          + ∑ i, nmul (c2 i)
              (smulP ((garner q ginv i : ℕ) : ZMod (Qp q)) fromP) := by
      rw [← Finset.sum_sub_distrib, ← Finset.sum_add_distrib]
      refine Finset.sum_congr rfl fun i _ => ?_
      rw [hc0i i, nmul_add_right, nmul_sub_right]
    have hmulsum : nmul (∑ i, nmul (c2 i) (KS.c1 i)) s =
        ∑ i, nmul (c2 i) (nmul (c1s i) s) := by
      rw [nmul_sum_left]
      refine Finset.sum_congr rfl fun i _ => ?_
      rw [hc1i i, nmul_assoc hn]
    have hG : (∑ i, nmul (c2 i)
        (smulP ((garner q ginv i : ℕ) : ZMod (Qp q)) fromP)) =
          nmul p fromP := by
      have hstep : ∀ i : Fin k, nmul (c2 i)
          (smulP ((garner q ginv i : ℕ) : ZMod (Qp q)) fromP) =
            nmul (smulP ((garner q ginv i : ℕ) : ZMod (Qp q)) (c2 i)) fromP := by
        intro i
        rw [nmul_smulP_right, smulP_nmul_left]
      rw [Finset.sum_congr rfl fun i _ => hstep i, ← nmul_sum_left]
      simp only [hc2]
      rw [garner_rows_reconstruct q hq hco ginv hginv p]
    rw [hsplit, hmulsum, hG]
    have hA : (∑ i, nmul (c2 i) (E i)) = ksNoise q p E := rfl
    rw [hA]
    abel
  · -- noise bound
    intro j
    have hzj : ksNoise q p E j =
        ((∑ i : Fin k, nmulInt (fun l => (p l).val % q i) (ebar i) j : ℤ)
          : ZMod (Qp q)) := by
      rw [ksNoise, Finset.sum_apply, Int.cast_sum]
      exact Finset.sum_congr rfl fun i _ =>
        nmul_castRow_intCast (fun l => (p l).val % q i) (ebar i) j
    have habs : (∑ i : Fin k, nmulInt (fun l => (p l).val % q i) (ebar i) j).natAbs
        ≤ n * B * (∑ i, q i) := by
      calc (∑ i : Fin k, nmulInt (fun l => (p l).val % q i) (ebar i) j).natAbs
          ≤ ∑ i : Fin k, (nmulInt (fun l => (p l).val % q i) (ebar i) j).natAbs :=
            natAbs_sum_le_finset _ _
        _ ≤ ∑ i : Fin k, n * (q i * B) := by
            refine Finset.sum_le_sum fun i _ => ?_
            exact nmulInt_natAbs_le _ _ _ (q i) B
              (fun l => le_of_lt (Nat.mod_lt _ (hq i))) (fun l => he i l)
        _ = n * B * (∑ i, q i) := by
            rw [Finset.mul_sum]
            exact Finset.sum_congr rfl fun i _ => by ring
    rw [hzj]
    have hlt : (∑ i : Fin k, nmulInt (fun l => (p l).val % q i) (ebar i) j).natAbs
        < Qp q := lt_trans (lt_of_le_of_lt habs hBd) hQbig
    exact lt_of_le_of_lt (balanced_min_le _ hlt) (lt_of_le_of_lt habs hBd)

/-- `fhers_protos::bfv::KeySwitchingKey`, the wire message: the seed bytes
and the list of `c0` ring elements (the external per-element `Rq` encoding is
modelled as the ring element itself). -/
structure KSKProto (n Qv : ℕ) where
  pseed : List (Fin 256)
  pc0 : List (Rq n Qv)

/-- `From<&KeySwitchingKey> for KeySwitchingKeyProto` (key_switching_key.rs
lines 118-127): serialize the seed bytes and the `c0` vector only; `c1` is
not stored. -/
def kskToProto (ksk : KSKModel n k q) : KSKProto n (Qp q) :=
  { pseed := List.ofFn (fun i : Fin 32 => ksk.seed i)
    pc0 := List.ofFn ksk.c0 }

/-- `TryConvertFrom<&KeySwitchingKeyProto> for KeySwitchingKey`
(key_switching_key.rs lines 129-160): reject a seed of the wrong length, then
a `c0` list whose count differs from the parameter set's ciphertext modulus
count; otherwise rebuild `c1` deterministically from the stored seed. -/
def kskTryConvertFrom (proto : KSKProto n (Qp q)) :
    Except String (KSKModel n k q) :=
  if hs : proto.pseed.length = 32 then
    if hc : proto.pc0.length = k then
      let seed : SeedT := fun i => proto.pseed.get ⟨i.val, by
        have := i.isLt; omega⟩
      .ok { seed := seed
            c0 := fun i => proto.pc0.get ⟨i.val, by have := i.isLt; omega⟩
            c1 := generate_c1 q seedDerive prgK seed }
    else .error "Invalid number of c0"
  else .error "Invalid seed"

/-- C4: `KeySwitchingKey::new` produces, for each ciphertext-modulus limb `i`,
`c0_i = -(c1_i·s) + e_i + g_i·from` with freshly sampled noise `e_i` and the
`i`-th Garner scalar `g_i`, and a `c1` vector derived deterministically from
the sampled seed alone (independent of the secret, target and noise). -/
theorem c4_ksk_generation (s fromP : Rq n (Qp q)) (seed : SeedT)
    (e : Fin k → Rq n (Qp q)) (ginv : Fin k → ℕ) :
    (∀ i, (ksk_new q seedDerive prgK s fromP seed e ginv).c0 i =
        -(nmul ((ksk_new q seedDerive prgK s fromP seed e ginv).c1 i) s)
        + e i + smulP ((garner q ginv i : ℕ) : ZMod (Qp q)) fromP) ∧
    ((ksk_new q seedDerive prgK s fromP seed e ginv).c1 =
      generate_c1 q seedDerive prgK seed) ∧
    (∀ s2 from2 e2 ginv2,
      (ksk_new q seedDerive prgK s2 from2 seed e2 ginv2).c1 =
      (ksk_new q seedDerive prgK s fromP seed e ginv).c1) := by
  refine ⟨?_, rfl, fun _ _ _ _ => rfl⟩
  intro i
  show (e i - nmul (generate_c1 q seedDerive prgK seed i) s)
      + smulP ((garner q ginv i : ℕ) : ZMod (Qp q)) fromP
      = -(nmul (generate_c1 q seedDerive prgK seed i) s) + e i
        + smulP ((garner q ginv i : ℕ) : ZMod (Qp q)) fromP
  abel

/-- C5: serializing a key-switching key (seed and `c0` only) and
deserializing under the same parameters returns the identical key, with `c1`
rebuilt deterministically from the stored seed.  The hypothesis — `c1` is the
seed-derived vector — is the invariant every key satisfies, being established
both by `new` and by deserialization. -/
theorem c5_ksk_proto_roundtrip (ksk : KSKModel n k q)
    (hc1 : ksk.c1 = generate_c1 q seedDerive prgK ksk.seed) :
    kskTryConvertFrom q seedDerive prgK (kskToProto q ksk) = .ok ksk := by
  obtain ⟨s0, c00, c10⟩ := ksk
  simp only at hc1
  subst hc1
  unfold kskTryConvertFrom kskToProto
  dsimp only
  rw [dif_pos (show (List.ofFn fun i : Fin 32 => s0 i).length = 32 by simp)]
  rw [dif_pos (show (List.ofFn c00).length = k by simp)]
  have hS : (fun i : Fin 32 => (List.ofFn fun i2 : Fin 32 => s0 i2).get
      ⟨i.val, by simpa using i.isLt⟩) = s0 := by
    funext i
    rw [List.get_ofFn]
    congr 1
  have hC : (fun i : Fin k => (List.ofFn c00).get
      ⟨i.val, by simpa using i.isLt⟩) = c00 := by
    funext i
    rw [List.get_ofFn]
    congr 1
  rw [hS, hC]

/-- C6: deserializing a key-switching-key proto fails with a validation error
exactly when the stored seed has the wrong length or the stored `c0` count
differs from the parameter set's ciphertext-modulus count; otherwise it
returns a well-formed key: its `c1` is regenerated from the stored seed and
its `c0` entries are the stored ones. -/
theorem c6_ksk_proto_validation (proto : KSKProto n (Qp q)) :
    ((∃ msg, kskTryConvertFrom q seedDerive prgK proto = .error msg) ↔
      (proto.pseed.length ≠ 32 ∨ proto.pc0.length ≠ k)) ∧
    (∀ ksk, kskTryConvertFrom q seedDerive prgK proto = .ok ksk →
      ksk.c1 = generate_c1 q seedDerive prgK ksk.seed ∧
      List.ofFn ksk.c0 = proto.pc0) := by
  unfold kskTryConvertFrom
  by_cases hs : proto.pseed.length = 32
  · rw [dif_pos hs]
    by_cases hc : proto.pc0.length = k
    · rw [dif_pos hc]
      constructor
      · constructor
        · rintro ⟨msg, hmsg⟩
          cases hmsg
        · rintro (h | h)
          · exact absurd hs h
          · exact absurd hc h
      · intro ksk hk
        injection hk with hk
        subst hk
        refine ⟨rfl, ?_⟩
        apply List.ext_get
        · simp [hc]
        · intro i h1 h2
          rw [List.get_ofFn]
          congr 1
    · rw [dif_neg hc]
      refine ⟨⟨fun _ => Or.inr hc, fun _ => ⟨_, rfl⟩⟩, ?_⟩
      intro ksk hk
      cases hk
  · rw [dif_neg hs]
    refine ⟨⟨fun _ => Or.inl hs, fun _ => ⟨_, rfl⟩⟩, ?_⟩
    intro ksk hk
    cases hk

end Ksk

/-! ### Concrete instances for the key-switching claims -/

/-- Two coprime 36/37-bit moduli whose product exceeds `2^71`. -/
def qW : Fin 2 → ℕ := ![2 ^ 36, 2 ^ 36 + 1]

/-- CRT inverse witnesses for `qW`: `(2^36+1)·1 ≡ 1 (mod 2^36)` and
`2^36·2^36 ≡ 1 (mod 2^36+1)`. -/
def ginvW : Fin 2 → ℕ := ![1, 2 ^ 36]

/-- A trivial deterministic seed-derivation stream. -/
def sdW : SeedT → ℕ → SeedT := fun s _ => s

/-- A trivial polynomial expander for the `qW` ring. -/
def pkW : SeedT → Rq 1 (Qp qW) := fun _ => 0

/-- The all-zero seed. -/
def seedW : SeedT := fun _ => 0

theorem c2_witness :
    (0 : ℕ) < 1 ∧
    (((((0 : Rq 1 (Qp qW)), (0 : Rq 1 (Qp qW))) :
          Rq 1 (Qp qW) × Rq 1 (Qp qW)).1 +
        nmul ((((0 : Rq 1 (Qp qW)), (0 : Rq 1 (Qp qW))) :
          Rq 1 (Qp qW) × Rq 1 (Qp qW)).2) 0 =
      nmul (0 : Rq 1 (Qp qW)) 0 +
        ksNoise qW (0 : Rq 1 (Qp qW))
          (fun _ _ => ((0 : ℤ) : ZMod (Qp qW)))) ∧
      ∀ j : Fin 1,
        min ((ksNoise qW (0 : Rq 1 (Qp qW))
            (fun _ _ => ((0 : ℤ) : ZMod (Qp qW))) j).val)
          (Qp qW - (ksNoise qW (0 : Rq 1 (Qp qW))
            (fun _ _ => ((0 : ℤ) : ZMod (Qp qW))) j).val)
        < 2 ^ 70) :=
  ⟨by decide,
   c2_key_switch_correct qW sdW pkW (by decide) (by decide) (by decide)
     ginvW (by decide) 0 0 0 seedW 0 (fun _ _ => 0)
     (fun _ _ => Nat.le.refl) (by decide) (by decide) (0, 0) (by decide)⟩

/-- A 2-limb parameter vector for the C3 exhibit. -/
def q3 : Fin 2 → ℕ := ![2, 3]

/-- A concrete 2-limb key-switching key with distinguishable entries. -/
def ksk3 : KSKModel 1 2 q3 :=
  ⟨fun _ => 0, ![fun _ => 1, fun _ => 2], ![fun _ => 3, fun _ => 4]⟩

/-- C3 (code bug): `key_switch` performs no limb-count validation.  Applied to
an input with a single limb row against a 2-limb key it silently processes
just that limb (accumulating `c2_0·c0_0` and `c2_0·c1_0` only) and returns
`Ok` — `izip!` truncates to the shortest iterator — instead of failing with a
descriptive error as the spec requires for this untrusted-input path (the
source even carries a `TODO` about missing input checks). -/
theorem c3_key_switch_missing_limb_check :
    ([fun _ : Fin 1 => (1 : ℕ)].length ≠ 2) ∧
    key_switch q3 ksk3 [fun _ : Fin 1 => (1 : ℕ)] 0 0
      = .ok (nmul (castRow (fun _ : Fin 1 => (1 : ℕ))) (ksk3.c0 0),
             nmul (castRow (fun _ : Fin 1 => (1 : ℕ))) (ksk3.c1 0)) := by
  constructor
  · decide
  · show Except.ok (key_switch_go q3 ksk3 _ 0 (0, 0)) = _
    rw [key_switch_go, dif_pos (show (0 : ℕ) < 2 by omega), key_switch_go]
    rw [zero_add, zero_add]
    rfl

theorem c5_witness :
    kskTryConvertFrom qW sdW pkW
      (kskToProto qW (ksk_new qW sdW pkW 0 0 seedW (fun _ => 0) ginvW))
    = .ok (ksk_new qW sdW pkW 0 0 seedW (fun _ => 0) ginvW) :=
  c5_ksk_proto_roundtrip qW sdW pkW
    (ksk_new qW sdW pkW 0 0 seedW (fun _ => 0) ginvW) rfl

theorem c6_witness :
    ((∃ msg, kskTryConvertFrom qW sdW pkW ⟨[], []⟩ = .error msg) ↔
      ((⟨[], []⟩ : KSKProto 1 (Qp qW)).pseed.length ≠ 32 ∨
        (⟨[], []⟩ : KSKProto 1 (Qp qW)).pc0.length ≠ 2)) ∧
    (∀ ksk, kskTryConvertFrom qW sdW pkW ⟨[], []⟩ = .ok ksk →
      ksk.c1 = generate_c1 qW sdW pkW ksk.seed ∧
      List.ofFn ksk.c0 = (⟨[], []⟩ : KSKProto 1 (Qp qW)).pc0) :=
  c6_ksk_proto_validation qW sdW pkW ⟨[], []⟩

/-! ## Plaintexts, ciphertexts, secret keys
(crates/fhe/src/bfv/plaintext.rs and crates/fhers/src/bfv/keys/secret_key.rs) -/

/-- `Plaintext`: parameters pointer, encoded value vector, optional encoding,
and the cached NTT-form scaled polynomial.  The parameter set and `Encoding`
are external types; the claims use them only through equality, so they are
abstract type parameters here. -/
structure PlaintextM (Par Enc : Type) (n q : ℕ) where
  par : Par
  value : Fin n → ℕ
  encoding : Option Enc
  polyNtt : Rq n q
deriving DecidableEq

/-- `impl PartialEq for Plaintext` (plaintext.rs lines 84-93): parameters and
values are always compared; encodings are compared only when both sides carry
one. -/
def ptEq {Par Enc : Type} [DecidableEq Par] [DecidableEq Enc] {n q : ℕ}
    (x y : PlaintextM Par Enc n q) : Bool :=
  let e0 := decide (x.par = y.par) && decide (x.value = y.value)
  if x.encoding.isSome && y.encoding.isSome then
    e0 && decide (x.encoding = y.encoding)
  else e0

/-- `SecretKey`: parameters and the secret polynomial.  The stored list
`[s, s², …]` is a cache of `nmul`-powers of `s` (maintained by the decryption
loop), so only `s` itself is state. -/
structure SecretKeyM (Par : Type) (n q : ℕ) where
  par : Par
  s : Rq n q
deriving DecidableEq

/-- `Ciphertext`: parameters, the optional seed regenerating `c₁`, and the
list of polynomials. -/
structure CiphertextM (Par : Type) (n q : ℕ) where
  par : Par
  seed : Option ℕ
  cs : List (Rq n q)
deriving DecidableEq

/-- Outcome of an operation that may abort (a failing `assert_eq!` panics
instead of returning an error value). -/
inductive PanicOr (α : Type) where
  | panicked : String → PanicOr α
  | ok : α → PanicOr α
deriving DecidableEq

/-- `Plaintext::to_poly` (plaintext.rs lines 47-57): multiply the value vector
by `q_mod_t` modulo `t`, lift into the ring, convert to NTT form and scale by
the level's `delta`.  `q_mod_t = q % t` and the constant polynomial `delta`
come from the external parameter builder; in the reference implementation
`delta = -t⁻¹ mod q`, which is what the round-trip hypothesis
`(t : ZMod q) * delta = -1` expresses. -/
def toPolyM {Par Enc : Type} (n q t : ℕ) (delta : ZMod q)
    (pt : PlaintextM Par Enc n q) : Rq n q :=
  smulP delta (fun j => (((pt.value j * (q % t)) % t : ℕ) : ZMod q))

/-- `SecretKey::try_encrypt` (secret_key.rs lines 113-144): `assert_eq!` on
the parameter sets (an abort, not an error value), derive the public
polynomial `a` from a fresh seed, sample small noise `e`, compute
`b = e - a·s + m`, output the ciphertext `(b, a)` with the seed attached.
The seed, `a`-derivation (`Poly::random_from_seed`, abstracted as `prgC`)
and noise are explicit parameters. -/
def tryEncrypt {Par Enc : Type} [DecidableEq Par] (n q t : ℕ) (delta : ZMod q)
    (prgC : ℕ → Rq n q) (sk : SecretKeyM Par n q) (pt : PlaintextM Par Enc n q)
    (seed : ℕ) (e : Rq n q) : PanicOr (CiphertextM Par n q) :=
  if sk.par = pt.par then
    let a := prgC seed
    let b := e - nmul a sk.s + toPolyM n q t delta pt
    .ok { par := sk.par, seed := some seed, cs := [b, a] }
  else .panicked "assertion failed: self.par == pt.par"

/-- The tail of the decryption accumulation: `Σ_{i≥1} c_i · s^i`, computed
with a running power `pw` exactly like the loop of `try_decrypt` (which
extends the cached power list by one `· s` multiplication per step). -/
def comboRest {n q : ℕ} (s : Rq n q) : List (Rq n q) → Rq n q → Rq n q
  | [], _ => 0
  | c :: rest, pw => nmul c pw + comboRest s rest (nmul pw s)

/-- `c = c_0 + Σ_{i≥1} c_i · s^i`, as accumulated by `try_decrypt`. -/
def combo {n q : ℕ} (s : Rq n q) : List (Rq n q) → Rq n q
  | [] => 0
  | c0 :: rest => c0 + comboRest s rest s

/-- Modelled from the spec: the RNS-aware rounding `Scaler` (§2, §4.5) as
used by decryption, `scale(c, false)`: multiply by the plaintext modulus,
divide by the ciphertext modulus and round, on canonical representatives:
`round(t·c/q) = ⌊(2·t·c + q) / (2·q)⌋`. -/
def scaleRound (q t : ℕ) (c : ZMod q) : ℕ := (2 * t * c.val + q) / (2 * q)

/-- Per-coefficient correctness of the decryption post-processing: scaling a
coefficient `Δ·v + e` (with `v = m·(q mod t) mod t` the pre-multiplied encoded
value and `e` the accumulated noise), adding `t`, reducing modulo `q1` and
then modulo `t` recovers `m`, provided the noise is within budget. -/
lemma scaleRound_recovers (q t q1 : ℕ) (delta : ZMod q) (B : ℕ)
    (ht : 0 < t) (hq1 : 2 * t < q1) (hB : 2 * t * (B + 1) ≤ q)
    (hdelta : (t : ZMod q) * delta = -1)
    (m : ℕ) (hm : m < t) (e : ℤ) (he : e.natAbs ≤ B) :
    ((scaleRound q t ((e : ZMod q) + delta * (((m * (q % t)) % t : ℕ) : ZMod q))
        + t) % q1) % t = m := by
  have hq0 : 2 ≤ q := le_trans (by nlinarith) hB
  haveI : NeZero q := ⟨by omega⟩
  set vN : ℕ := (m * (q % t)) % t with hvN
  have hv_lt : vN < t := Nat.mod_lt _ ht
  set c : ZMod q := (e : ZMod q) + delta * (vN : ZMod q) with hc
  -- `t` divides `q·m - v` over ℤ
  have hdvd : (t : ℤ) ∣ ((q : ℤ) * m - vN) := by
    have h1 : (q * m) % t = vN % t := by
      rw [Nat.mul_mod, Nat.mod_eq_of_lt hm, hvN, Nat.mod_mod_of_dvd _ dvd_rfl,
        Nat.mul_comm]
    have h2 : (q * m : ℕ) ≡ vN [MOD t] := h1
    have h3 : ((q * m : ℕ) : ℤ) ≡ (vN : ℤ) [ZMOD (t : ℕ)] :=
      Int.natCast_modEq_iff.mpr h2
    have h4 := Int.ModEq.dvd h3
    have h5 : ((q * m : ℕ) : ℤ) = (q : ℤ) * m := by push_cast; ring
    rw [h5] at h4
    exact dvd_sub_comm.mp h4
  set u : ℤ := ((q : ℤ) * m - vN) / t + e with hu
  have htu : (t : ℤ) * (((q : ℤ) * m - vN) / t) = (q : ℤ) * m - vN :=
    Int.mul_ediv_cancel' hdvd
  -- the accumulated coefficient is the image of `u`
  have hunit : IsUnit (t : ZMod q) := by
    refine isUnit_of_mul_eq_one _ (-delta) ?_
    rw [mul_neg, hdelta, neg_neg]
  have hX : (t : ZMod q) * ((((q : ℤ) * m - vN) / t : ℤ) : ZMod q)
      = -(vN : ZMod q) := by
    have h6 : (t : ZMod q) * ((((q : ℤ) * m - vN) / t : ℤ) : ZMod q)
        = (((t : ℤ) * (((q : ℤ) * m - vN) / t) : ℤ) : ZMod q) := by
      push_cast
      ring
    rw [h6, htu]
    push_cast
    rw [ZMod.natCast_self]
    ring
  have hXd : ((((q : ℤ) * m - vN) / t : ℤ) : ZMod q) = delta * (vN : ZMod q) := by
    have h7 : (t : ZMod q) * (delta * (vN : ZMod q)) = -(vN : ZMod q) := by
      rw [← mul_assoc, hdelta]
      ring
    exact hunit.mul_left_cancel (hX.trans h7.symm)
  have hcu : ((u : ℤ) : ZMod q) = c := by
    rw [hu, hc]
    push_cast
    rw [hXd]
    ring
  -- the canonical representative of `c` differs from `u` by a multiple of `q`
  have hval : ((c.val : ℕ) : ℤ) = u - (q : ℤ) * (u / q) := by
    have h8 : ((c.val : ℕ) : ℤ) = u % q := by
      rw [← hcu, ZMod.val_intCast]
    rw [h8, Int.emod_def]
  set K : ℤ := -(u / q) with hK
  have hvalK : ((c.val : ℕ) : ℤ) = u + q * K := by
    rw [hval, hK]
    ring
  -- the rounded quotient is `m + t·K`
  have habs1 : -(B : ℤ) ≤ e := by omega
  have habs2 : e ≤ (B : ℤ) := by omega
  have h2q : (0 : ℤ) < 2 * q := by positivity
  have hd : (scaleRound q t c : ℤ) = m + t * K := by
    rw [scaleRound]
    rw [Int.natCast_div]
    have h9 : ((2 * t * c.val + q : ℕ) : ℤ) = (2 * t * u + q) + (t * K) * (2 * q) := by
      push_cast
      rw [show (2 : ℤ) * t * (c.val : ℤ) = 2 * t * ((c.val : ℕ) : ℤ) from by push_cast; ring]
      rw [hvalK]
      ring
    rw [show ((2 * q : ℕ) : ℤ) = 2 * (q : ℤ) from by push_cast; ring, h9,
      Int.add_mul_ediv_right _ _ (ne_of_gt h2q)]
    have h10 : 2 * t * u + q = ((2 : ℤ) * t * e - 2 * vN + q) + m * (2 * q) := by
      rw [hu]
      have : (2 : ℤ) * t * (((q : ℤ) * m - vN) / t + e)
          = 2 * ((t : ℤ) * (((q : ℤ) * m - vN) / t)) + 2 * t * e := by ring
      rw [this, htu]
      ring
    rw [h10, Int.add_mul_ediv_right _ _ (ne_of_gt h2q)]
    have hr0 : (0 : ℤ) ≤ 2 * t * e - 2 * vN + q := by
      have hBq : (2 : ℤ) * t * (B + 1) ≤ q := by exact_mod_cast hB
      have hv : (vN : ℤ) ≤ (t : ℤ) - 1 := by omega
      nlinarith [habs1, ht]
    have hr2 : 2 * t * e - 2 * vN + q < 2 * q := by
      have hBq : (2 : ℤ) * t * (B + 1) ≤ q := by exact_mod_cast hB
      have ht' : (1 : ℤ) ≤ t := by exact_mod_cast ht
      nlinarith [habs2]
    rw [Int.ediv_eq_zero_of_lt hr0 hr2]
    ring
  -- the rounded quotient is at most `t`
  have hcv : c.val < q := ZMod.val_lt c
  have hdle : scaleRound q t c ≤ t := by
    rw [scaleRound]
    have h11 : 2 * t * c.val + q < (t + 1) * (2 * q) := by nlinarith
    have := (Nat.div_lt_iff_lt_mul (show 0 < 2 * q by omega)).mpr h11
    omega
  -- put the pieces together
  have hfin : ((scaleRound q t c + t) % q1) % t = scaleRound q t c % t := by
    rw [Nat.mod_eq_of_lt (show scaleRound q t c + t < q1 by omega),
      Nat.add_mod_right]
  rw [hfin]
  have hmod : ((scaleRound q t c % t : ℕ) : ℤ) = ((m % t : ℕ) : ℤ) := by
    rw [Int.natCast_mod, Int.natCast_mod, hd, Int.add_mul_emod_self_left]
  have h12 := Nat.cast_inj (R := ℤ) |>.mp hmod
  rw [Nat.mod_eq_of_lt hm] at h12
  exact h12

/-- `SecretKey::try_decrypt` (secret_key.rs lines 149-206): reject on
parameter mismatch with a recoverable error; otherwise accumulate
`c = c₀ + Σ c_i·s^i`, convert to power basis, scale with the rounding scaler,
add `t`, reduce modulo the first ciphertext modulus `q1` and then modulo `t`,
and rebuild a plaintext with no encoding. -/
def tryDecrypt (Enc : Type) {Par : Type} [DecidableEq Par] (n q t q1 : ℕ)
    (sk : SecretKeyM Par n q) (ct : CiphertextM Par n q) :
    Except String (PlaintextM Par Enc n q) :=
  if sk.par = ct.par then
    let c := combo sk.s ct.cs
    let w : Fin n → ℕ := fun j => ((scaleRound q t (c j) + t) % q1) % t
    .ok { par := sk.par, value := w, encoding := none,
          polyNtt := fun j => ((w j : ℕ) : ZMod q) }
  else .error "Incompatible BFV parameters"

lemma combo_pair {n q : ℕ} (s b a : Rq n q) :
    combo s [b, a] = b + nmul a s := by
  show b + (nmul a s + (0 : Rq n q)) = b + nmul a s
  rw [add_zero]

lemma combo_encrypt {n q : ℕ} (s a e m : Rq n q) :
    combo s [e - nmul a s + m, a] = e + m := by
  rw [combo_pair]
  abel

/-- C7: `try_decrypt` fails exactly when the ciphertext's parameter set
differs from the secret key's (a recoverable `Err`, "Incompatible BFV
parameters"); with equal parameter sets it returns a plaintext. -/
theorem c7_decrypt_error_iff_params {Par Enc : Type} [DecidableEq Par]
    [DecidableEq Enc] (n q t q1 : ℕ)
    (sk : SecretKeyM Par n q) (ct : CiphertextM Par n q) :
    ((∃ msg, tryDecrypt Enc n q t q1 sk ct = .error msg) ↔ sk.par ≠ ct.par) ∧
    (sk.par = ct.par → ∃ pt, tryDecrypt Enc n q t q1 sk ct = .ok pt) := by
  unfold tryDecrypt
  by_cases h : sk.par = ct.par
  · rw [if_pos h]
    refine ⟨⟨?_, ?_⟩, ?_⟩
    · rintro ⟨msg, hmsg⟩
      cases hmsg
    · intro hne
      exact absurd h hne
    · intro _
      exact ⟨_, rfl⟩
  · rw [if_neg h]
    exact ⟨⟨fun _ => h, fun _ => ⟨_, rfl⟩⟩, fun heq => absurd heq h⟩

theorem c7_witness :
    (((∃ msg, tryDecrypt ℕ 1 97 2 97
          (⟨0, 0⟩ : SecretKeyM ℕ 1 97) (⟨1, none, []⟩ : CiphertextM ℕ 1 97)
        = .error msg) ↔ (0 : ℕ) ≠ 1) ∧
      ((0 : ℕ) = 1 → ∃ pt, tryDecrypt ℕ 1 97 2 97
          (⟨0, 0⟩ : SecretKeyM ℕ 1 97) (⟨1, none, []⟩ : CiphertextM ℕ 1 97)
        = .ok pt)) ∧
    (((∃ msg, tryDecrypt ℕ 1 97 2 97
          (⟨0, 0⟩ : SecretKeyM ℕ 1 97) (⟨0, none, []⟩ : CiphertextM ℕ 1 97)
        = .error msg) ↔ (0 : ℕ) ≠ 0) ∧
      ((0 : ℕ) = 0 → ∃ pt, tryDecrypt ℕ 1 97 2 97
          (⟨0, 0⟩ : SecretKeyM ℕ 1 97) (⟨0, none, []⟩ : CiphertextM ℕ 1 97)
        = .ok pt)) :=
  ⟨c7_decrypt_error_iff_params 1 97 2 97 ⟨0, 0⟩ ⟨1, none, []⟩,
   c7_decrypt_error_iff_params 1 97 2 97 ⟨0, 0⟩ ⟨0, none, []⟩⟩

/-- C9: `try_encrypt` checks the plaintext's parameter set with `assert_eq!`:
on a mismatch it aborts (a panic, not a recoverable error value); whenever the
parameter sets agree the assertion passes and encryption returns a
ciphertext. -/
theorem c9_encrypt_panics_on_param_mismatch {Par Enc : Type} [DecidableEq Par]
    (n q t : ℕ) (delta : ZMod q) (prgC : ℕ → Rq n q)
    (sk : SecretKeyM Par n q) (pt : PlaintextM Par Enc n q)
    (seed : ℕ) (e : Rq n q) :
    ((∃ msg, tryEncrypt n q t delta prgC sk pt seed e = .panicked msg) ↔
      sk.par ≠ pt.par) ∧
    (sk.par = pt.par → ∃ ct, tryEncrypt n q t delta prgC sk pt seed e = .ok ct) := by
  unfold tryEncrypt
  by_cases h : sk.par = pt.par
  · rw [if_pos h]
    refine ⟨⟨?_, ?_⟩, ?_⟩
    · rintro ⟨msg, hmsg⟩
      cases hmsg
    · intro hne
      exact absurd h hne
    · intro _
      exact ⟨_, rfl⟩
  · rw [if_neg h]
    exact ⟨⟨fun _ => h, fun _ => ⟨_, rfl⟩⟩, fun heq => absurd heq h⟩

theorem c9_witness :
    (((∃ msg, tryEncrypt 1 97 2 (48 : ZMod 97) (fun _ => 0)
          (⟨0, 0⟩ : SecretKeyM ℕ 1 97) (⟨1, fun _ => 1, none, 0⟩ : PlaintextM ℕ ℕ 1 97) 0 0
        = .panicked msg) ↔ (0 : ℕ) ≠ 1) ∧
      ((0 : ℕ) = 1 → ∃ ct, tryEncrypt 1 97 2 (48 : ZMod 97) (fun _ => 0)
          (⟨0, 0⟩ : SecretKeyM ℕ 1 97) (⟨1, fun _ => 1, none, 0⟩ : PlaintextM ℕ ℕ 1 97) 0 0
        = .ok ct)) ∧
    (((∃ msg, tryEncrypt 1 97 2 (48 : ZMod 97) (fun _ => 0)
          (⟨0, 0⟩ : SecretKeyM ℕ 1 97) (⟨0, fun _ => 1, none, 0⟩ : PlaintextM ℕ ℕ 1 97) 0 0
        = .panicked msg) ↔ (0 : ℕ) ≠ 0) ∧
      ((0 : ℕ) = 0 → ∃ ct, tryEncrypt 1 97 2 (48 : ZMod 97) (fun _ => 0)
          (⟨0, 0⟩ : SecretKeyM ℕ 1 97) (⟨0, fun _ => 1, none, 0⟩ : PlaintextM ℕ ℕ 1 97) 0 0
        = .ok ct)) :=
  ⟨c9_encrypt_panics_on_param_mismatch 1 97 2 48 (fun _ => 0) ⟨0, 0⟩
      ⟨1, fun _ => 1, none, 0⟩ 0 0,
   c9_encrypt_panics_on_param_mismatch 1 97 2 48 (fun _ => 0) ⟨0, 0⟩
      ⟨0, fun _ => 1, none, 0⟩ 0 0⟩

/-- C10: plaintext equality compares parameters and values always, and
encodings only when both are present; consequently it is not transitive:
with equal parameters and values, `a` (encoding `E1`), `b` (no encoding) and
`c` (encoding `E2 ≠ E1`) satisfy `a == b` and `b == c` but not `a == c`. -/
theorem c10_ptEq_encoding_optional_not_transitive :
    (∀ (Par Enc : Type) (i1 : DecidableEq Par) (i2 : DecidableEq Enc)
        (n q : ℕ) (x y : PlaintextM Par Enc n q),
      @ptEq Par Enc i1 i2 n q x y = true ↔
        (x.par = y.par ∧ x.value = y.value ∧
          (x.encoding.isSome → y.encoding.isSome → x.encoding = y.encoding))) ∧
    (∃ a b c : PlaintextM ℕ ℕ 1 97,
      a.par = b.par ∧ b.par = c.par ∧ a.value = b.value ∧ b.value = c.value ∧
      a.encoding = some 0 ∧ b.encoding = none ∧ c.encoding = some 1 ∧
      ptEq a b = true ∧ ptEq b c = true ∧ ptEq a c = false) := by
  constructor
  · intro Par Enc i1 i2 n q x y
    unfold ptEq
    rcases hx : x.encoding with _ | ex <;> rcases hy : y.encoding with _ | ey <;>
      simp [hx, hy, and_assoc]
  · refine ⟨⟨0, fun _ => 1, some 0, 0⟩, ⟨0, fun _ => 1, none, 0⟩,
      ⟨0, fun _ => 1, some 1, 0⟩, rfl, rfl, rfl, rfl, rfl, rfl, rfl,
      by decide, by decide, by decide⟩

/-- C1: decrypting the encryption of a plaintext under the same (valid)
parameters returns a plaintext that compares equal to the original (same
parameters and value vector) and whose encoding is unset, provided the
plaintext is reduced modulo `t`, the sampled noise is within the bound `B`,
and the parameter set satisfies the correctness conditions
(`2·t·(B+1) ≤ q`, `2·t < q1`, `delta = -t⁻¹`). -/
theorem c1_encrypt_decrypt_roundtrip {Par Enc : Type} [DecidableEq Par]
    [DecidableEq Enc] (n q t q1 : ℕ) (delta : ZMod q) (prgC : ℕ → Rq n q)
    (B : ℕ) (ht : 0 < t) (hq1 : 2 * t < q1) (hB : 2 * t * (B + 1) ≤ q)
    (hdelta : (t : ZMod q) * delta = -1)
    (sk : SecretKeyM Par n q) (pt : PlaintextM Par Enc n q) (seed : ℕ)
    (ebar : Fin n → ℤ) (he : ∀ j, (ebar j).natAbs ≤ B)
    (hval : ∀ j, pt.value j < t) (hpar : sk.par = pt.par)
    (ct : CiphertextM Par n q)
    (hct : tryEncrypt n q t delta prgC sk pt seed
        (fun j => ((ebar j : ℤ) : ZMod q)) = .ok ct) :
    ∃ pt2, tryDecrypt Enc n q t q1 sk ct = .ok pt2 ∧
      ptEq pt2 pt = true ∧ pt2.encoding = none := by
  unfold tryEncrypt at hct
  rw [if_pos hpar] at hct
  injection hct with hct2
  subst hct2
  unfold tryDecrypt
  rw [if_pos (show sk.par = _ from rfl)]
  refine ⟨_, rfl, ?_, rfl⟩
  have hcombo := combo_encrypt sk.s (prgC seed)
    (fun j => ((ebar j : ℤ) : ZMod q)) (toPolyM n q t delta pt)
  have hw : ∀ j : Fin n, ((scaleRound q t
        ((combo sk.s [(fun j2 => ((ebar j2 : ℤ) : ZMod q)) -
            nmul (prgC seed) sk.s + toPolyM n q t delta pt, prgC seed]) j)
        + t) % q1) % t = pt.value j := by
    intro j
    rw [hcombo]
    have happ : ((fun j2 => ((ebar j2 : ℤ) : ZMod q))
        + toPolyM n q t delta pt) j = ((ebar j : ℤ) : ZMod q)
          + delta * (((pt.value j * (q % t)) % t : ℕ) : ZMod q) := rfl
    rw [happ]
    exact scaleRound_recovers q t q1 delta B ht hq1 hB hdelta
      (pt.value j) (hval j) (ebar j) (he j)
  have hveq : (fun j => ((scaleRound q t
        ((combo sk.s [(fun j2 => ((ebar j2 : ℤ) : ZMod q)) -
            nmul (prgC seed) sk.s + toPolyM n q t delta pt, prgC seed]) j)
        + t) % q1) % t) = pt.value := funext hw
  simp [ptEq, hveq, hpar]

theorem c1_witness :
    (0 < 2 ∧ 2 * 2 < 97 ∧ 2 * 2 * (0 + 1) ≤ 97 ∧
      ((2 : ZMod 97) * 48 = -1)) ∧
    (∃ pt2, tryDecrypt ℕ 1 97 2 97 (⟨0, 0⟩ : SecretKeyM ℕ 1 97)
        (⟨0, some 0, [(fun _ => (((0 : ℤ) : ZMod 97))) -
            nmul ((fun _ => 0) 0 : Rq 1 97) (0 : Rq 1 97) +
            toPolyM 1 97 2 48 (⟨0, fun _ => 1, some 7, 0⟩ : PlaintextM ℕ ℕ 1 97),
          ((fun _ => 0) 0 : Rq 1 97)]⟩ : CiphertextM ℕ 1 97) = .ok pt2 ∧
      ptEq pt2 (⟨0, fun _ => 1, some 7, 0⟩ : PlaintextM ℕ ℕ 1 97) = true ∧
      pt2.encoding = none) :=
  ⟨⟨by decide, by decide, by decide, by decide⟩,
   c1_encrypt_decrypt_roundtrip 1 97 2 97 48 (fun _ => 0) 0
     (by decide) (by decide) (by decide) (by decide)
     ⟨0, 0⟩ ⟨0, fun _ => 1, some 7, 0⟩ 0 (fun _ => 0)
     (fun _ => Nat.le.refl) (fun _ => Nat.lt.base 1) rfl
     _ rfl⟩

end FheRs
